import Mathlib

/-!
Verification of the execution-environment selector FRP wiring
(`app/gui/view/graph-editor/src/execution_environment.rs`) and of the
bounded circular deque (`lib/rust/data-structures/src/circular_vec.rs`).

The FRP propagation engine itself (`lib/rust/frp`) is not part of the
sampled sources; its per-pass semantics (topological evaluation, MergeAny
and MergeAll combinators, sample-with-pre-pass-snapshot) are modelled from
the specification.  The wiring of the concrete network, the `next option`
computation and the circular deque are translated from the source files.
-/

namespace Enso

/-- Execution environments are string-valued entries; the example scene
builds the available list from the strings `"Design"` and `"Live"`. -/
abbrev ExecutionEnvironment := String

/-- Embedding of Rust `Iterator::position`: index of the first element
satisfying the predicate. -/
def position {α : Type} (p : α → Bool) : List α → Option Nat
  | [] => none
  | x :: xs => if p x then some 0 else (position p xs).map (fun i => i + 1)

/-- Translation of `get_next_execution_environment` from
`execution_environment.rs`: find the current value in the available list
and step to the next index modulo the length.  The Rust indexing
`available[next_index]` (which would panic out of bounds) is modelled with
the partial lookup `available[next_index]?`. -/
def get_next_execution_environment (current : ExecutionEnvironment)
    (available : List ExecutionEnvironment) : Option ExecutionEnvironment :=
  match position (fun mode => mode == current) available with
  | none => none
  | some index => available[(index + 1) % available.length]?

-- === Circular deque (`circular_vec.rs`) ===

/-- Translation of `CircularVecDeque<T>`: a `VecDeque` with a recorded
capacity; the `VecDeque` is modelled as a list with its front at the
head. -/
structure CircularVecDeque (T : Type) where
  capacity : Nat
  vec : List T
deriving DecidableEq, Repr

namespace CircularVecDeque

/-- Translation of `CircularVecDeque::new`. -/
def new {T : Type} (capacity : Nat) : CircularVecDeque T :=
  { capacity := capacity, vec := [] }

/-- Translation of `CircularVecDeque::is_empty`. -/
def is_empty {T : Type} (d : CircularVecDeque T) : Bool :=
  d.vec.isEmpty

/-- Translation of `CircularVecDeque::len`. -/
def len {T : Type} (d : CircularVecDeque T) : Nat :=
  d.vec.length

/-- Translation of `CircularVecDeque::is_full`. -/
def is_full {T : Type} (d : CircularVecDeque T) : Bool :=
  d.len == d.capacity

/-- Translation of `CircularVecDeque::pop_front`: returns the removed
element (if any) together with the updated deque. -/
def pop_front {T : Type} (d : CircularVecDeque T) :
    Option T × CircularVecDeque T :=
  (d.vec.head?, { d with vec := d.vec.tail })

/-- Translation of `CircularVecDeque::pop_back`. -/
def pop_back {T : Type} (d : CircularVecDeque T) :
    Option T × CircularVecDeque T :=
  (d.vec.getLast?, { d with vec := d.vec.dropLast })

/-- Translation of `CircularVecDeque::push_front`: when full, the back
element is dropped first. -/
def push_front {T : Type} (d : CircularVecDeque T) (value : T) :
    CircularVecDeque T :=
  let d := if d.is_full then (d.pop_back).2 else d
  { d with vec := value :: d.vec }

/-- Translation of `CircularVecDeque::push_back`: when full, the front
element is dropped first. -/
def push_back {T : Type} (d : CircularVecDeque T) (value : T) :
    CircularVecDeque T :=
  let d := if d.is_full then (d.pop_front).2 else d
  { d with vec := d.vec ++ [value] }

/-- Translation of `CircularVecDeque::get`. -/
def get {T : Type} (d : CircularVecDeque T) (index : Nat) : Option T :=
  d.vec[index]?

/-- Translation of `CircularVecDeque::last`. -/
def last {T : Type} (d : CircularVecDeque T) : Option T :=
  d.vec.getLast?

/-- The loop body of `with_last_n_elems`: visit the given indices in
order; `get_mut(i).unwrap()` is modelled by failing with `none` when the
index is out of bounds.  The closure state `σ` models the `FnMut`
environment. -/
def withLastNGo {T σ : Type} (f : σ → T → σ × T) :
    List Nat → σ → List T → Option (σ × List T)
  | [], s, v => some (s, v)
  | i :: is, s, v =>
    match v[i]? with
    | none => none
    | some x =>
      let p := f s x
      withLastNGo f is p.1 (v.set i p.2)

/-- Translation of `CircularVecDeque::with_last_n_elems`: run `f` on the
last `n` elements, iterating indices `start..len`. -/
def with_last_n_elems {T σ : Type} (d : CircularVecDeque T) (n : Nat)
    (f : σ → T → σ × T) (s : σ) : Option (σ × CircularVecDeque T) :=
  let len := d.len
  let start := len - n
  match withLastNGo f (List.range' start (len - start)) s d.vec with
  | none => none
  | some p => some (p.1, { d with vec := p.2 })

/-- Translation of `CircularVecDeque::with_last_nth_elem`: run `f` on the
`n`-th element counted from the back, when it exists. -/
def with_last_nth_elem {T : Type} (d : CircularVecDeque T) (n : Nat)
    (f : T → T) : Option (CircularVecDeque T) :=
  let len := d.len
  if len > n then
    match d.vec[len - n - 1]? with
    | none => none
    | some x => some { d with vec := d.vec.set (len - n - 1) (f x) }
  else
    some d

end CircularVecDeque

/-- One mutating operation on a `CircularVecDeque`, used to quantify over
arbitrary operation sequences. -/
inductive DequeOp (T : Type) where
  | push_front (v : T)
  | push_back (v : T)
  | pop_front
  | pop_back
deriving DecidableEq, Repr

/-- Apply one operation to a deque. -/
def applyOp {T : Type} (d : CircularVecDeque T) : DequeOp T → CircularVecDeque T
  | .push_front v => d.push_front v
  | .push_back v => d.push_back v
  | .pop_front => (d.pop_front).2
  | .pop_back => (d.pop_back).2

/-- Apply a sequence of operations to a deque, in order. -/
def runOps {T : Type} (d : CircularVecDeque T) : List (DequeOp T) → CircularVecDeque T
  | [] => d
  | op :: ops => runOps (applyOp d op) ops

/-- Map with a threaded accumulator, left to right; this is the pure
description of running a stateful closure over a list in increasing
index order. -/
def mapAccum {T σ : Type} (f : σ → T → σ × T) : σ → List T → σ × List T
  | s, [] => (s, [])
  | s, x :: xs =>
    let p := f s x
    let q := mapAccum f p.1 xs
    (q.1, p.2 :: q.2)

-- === Generic combinator semantics (modelled from the spec) ===

/-- Modelled from the spec: the per-pass output of a `MergeAny` node.
The list holds, in declaration order, the value each upstream fired this
pass (`none` when that upstream did not fire); the node forwards the
value of the first-declared upstream that fired. -/
def mergeAnyFire {V : Type} : List (Option V) → Option V
  | [] => none
  | some v :: _ => some v
  | none :: rest => mergeAnyFire rest

/-- Modelled from the spec: a `MergeAll`/`Zip` node stores the latest
value of each upstream; a pass overwrites the slots of the upstreams
that fired this pass. -/
def mergeAllSlots {V : Type} (slots firings : List (Option V)) :
    List (Option V) :=
  List.zipWith (fun s f => match f with | some v => some v | none => s)
    slots firings

/-- Turn a list of optional values into an optional list: `some` exactly
when every entry is `some`. -/
def seqOption {V : Type} : List (Option V) → Option (List V)
  | [] => some []
  | none :: _ => none
  | some v :: rest => (seqOption rest).map (fun l => v :: l)

/-- Modelled from the spec: the per-pass output of a `MergeAll`/`Zip`
node.  It fires only when at least one upstream fired this pass and every
slot (after this pass's updates) holds a value; it then forwards the full
tuple of latest values. -/
def mergeAllFire {V : Type} (slots firings : List (Option V)) :
    Option (List V) :=
  if firings.any Option.isSome then seqOption (mergeAllSlots slots firings)
  else none

/-- The slot state of a `MergeAll` node with `n` upstreams after a history
of passes, starting from Network creation (all slots empty). -/
def mergeAllRun {V : Type} (n : Nat) (hist : List (List (Option V))) :
    List (Option V) :=
  hist.foldl mergeAllSlots (List.replicate n none)

/-- The latest value upstream `i` fired over a history of passes, if it
ever fired. -/
def lastFiring {V : Type} (hist : List (List (Option V))) (i : Nat) :
    Option V :=
  hist.foldl
    (fun acc pass =>
      match pass[i]? with
      | some (some v) => some v
      | _ => acc)
    none

-- === The concrete selector network (wiring from `init_frp`) ===

/-- A two-dimensional vector, standing in for `Vector2`; coordinates are
modelled as rationals. -/
structure Vec2 where
  x : ℚ
  y : ℚ
deriving DecidableEq, Repr

/-- The layout constants read by the `init_frp` layout observer
(`MACOS_TRAFFIC_LIGHTS_VERTICAL_CENTER`, `traffic_lights_gap_width()`,
`TOP_BAR_ITEM_MARGIN`, `component::breadcrumbs::HEIGHT`); their numeric
values live outside the sampled sources, so the development is
parametric in them. -/
structure LayoutConsts where
  macos_traffic_lights_vertical_center : ℚ
  traffic_lights_gap_width : ℚ
  top_bar_item_margin : ℚ
  breadcrumbs_height : ℚ
deriving DecidableEq, Repr

/-- The geometry written by the layout observer: the selector's x and y
position, the breadcrumb gap width and the breadcrumb y position. -/
structure Layout where
  execution_environment_selector_x : ℚ
  execution_environment_selector_y : ℚ
  breadcrumb_gap_width : ℚ
  breadcrumbs_y : ℚ
deriving DecidableEq, Repr

/-- Translation of the body of the `eval size_update` observer in
`init_frp`. -/
def computeLayout (c : LayoutConsts) (size gap_size : Vec2) : Layout :=
  let y_offset := c.macos_traffic_lights_vertical_center
  let traffic_light_width := c.traffic_lights_gap_width
  let execution_environment_selector_x := gap_size.x + traffic_light_width
  let breadcrumb_gap_width :=
    execution_environment_selector_x + size.x + c.top_bar_item_margin
  { execution_environment_selector_x := execution_environment_selector_x
    execution_environment_selector_y := y_offset + size.y / 2
    breadcrumb_gap_width := breadcrumb_gap_width
    breadcrumbs_y := y_offset + c.breadcrumbs_height / 2 }

/-- Modelled from the spec: the per-node last-value cells of the network
built by `init_frp`.  Every node starts with no value and stores the last
value it fired. -/
structure FrpState where
  out_execution_environment : Option ExecutionEnvironment
  set_available_execution_environments : Option (List ExecutionEnvironment)
  execution_environment_state :
    Option (ExecutionEnvironment × List ExecutionEnvironment)
  selector_set_available : Option (List ExecutionEnvironment)
  selector_set_execution_environment : Option ExecutionEnvironment
  play_button_pressed : Option Unit
  init : Option Unit
  selector_size : Option Vec2
  space_for_window_buttons : Option Vec2
  layout : Option Layout
deriving DecidableEq, Repr

/-- The network state at Network creation: no node has fired. -/
def initialFrpState : FrpState :=
  { out_execution_environment := none
    set_available_execution_environments := none
    execution_environment_state := none
    selector_set_available := none
    selector_set_execution_environment := none
    play_button_pressed := none
    init := none
    selector_size := none
    space_for_window_buttons := none
    layout := none }

/-- The external events that can drive the network: the `frp` input
commands, the selector component's own outputs, the geometry sources and
the one-shot `init` source. -/
inductive FrpInput where
  | set_available_execution_environments (envs : List ExecutionEnvironment)
  | set_execution_environment (env : ExecutionEnvironment)
  | toggle_execution_environment
  | selector_selected_execution_environment (env : ExecutionEnvironment)
  | play_press
  | selector_size_changed (s : Vec2)
  | space_for_window_buttons_changed (g : Vec2)
  | init_emit
deriving DecidableEq, Repr

/-- Propagate a new value of `out.execution_environment` within a pass:
the authoritative node updates, and then its downstream `all` node
`execution_environment_state` refires (it has a value for each upstream
as soon as the available list has been set). -/
def updateOut (s : FrpState) (env : ExecutionEnvironment) : FrpState :=
  let s := { s with out_execution_environment := some env }
  match s.set_available_execution_environments with
  | some available =>
    { s with execution_environment_state := some (env, available) }
  | none => s

/-- Propagate a pass through the layout half of the network: the
`size_update` node is `all(init, selector.size, space_for_window_buttons)`
and fires only once all three have a value; the attached observer then
writes the derived geometry. -/
def updateLayout (c : LayoutConsts) (s : FrpState) : FrpState :=
  match s.init, s.selector_size, s.space_for_window_buttons with
  | some _, some size, some gap =>
    { s with layout := some (computeLayout c size gap) }
  | _, _, _ => s

/-- Modelled from the spec: one propagation pass of the `init_frp`
network for one external event.  Nodes reachable from the firing source
are evaluated in topological order; the `sample` node reads the
pre-pass value of `execution_environment_state`, which is what breaks
the feedback loop through `out.execution_environment`. -/
def step (c : LayoutConsts) (s : FrpState) : FrpInput → FrpState
  | .set_available_execution_environments envs =>
    let s := { s with
      set_available_execution_environments := some envs
      selector_set_available := some envs }
    match s.out_execution_environment with
    | some env => { s with execution_environment_state := some (env, envs) }
    | none => s
  | .set_execution_environment env =>
    let s := { s with selector_set_execution_environment := some env }
    updateOut s env
  | .toggle_execution_environment =>
    match s.execution_environment_state with
    | none => s
    | some (mode, available) =>
      match get_next_execution_environment mode available with
      | none => s
      | some next =>
        let s := { s with selector_set_execution_environment := some next }
        updateOut s next
  | .selector_selected_execution_environment env => updateOut s env
  | .play_press => { s with play_button_pressed := some () }
  | .selector_size_changed v => updateLayout c { s with selector_size := some v }
  | .space_for_window_buttons_changed g =>
    updateLayout c { s with space_for_window_buttons := some g }
  | .init_emit => updateLayout c { s with init := some () }

/-- Run a sequence of external events through the network, one pass
each, in order. -/
def run (c : LayoutConsts) (s : FrpState) : List FrpInput → FrpState
  | [] => s
  | e :: es => run c (step c s e) es

/-- The value the `toggled_execution_environment` node fires during a
toggle pass: the next option computed from the pre-pass snapshot of
`execution_environment_state` (the `unwrap` node drops the `none`
case). -/
def toggledFiring (s : FrpState) : Option ExecutionEnvironment :=
  match s.execution_environment_state with
  | some (mode, available) => get_next_execution_environment mode available
  | none => none

/-- A fixed set of layout constants for concrete scenario runs; the
selection logic does not depend on their values. -/
def scenarioConsts : LayoutConsts :=
  { macos_traffic_lights_vertical_center := -13
    traffic_lights_gap_width := 78
    top_bar_item_margin := 8
    breadcrumbs_height := 28 }

-- === Lemmas about `position` ===

/-- When the sought element is absent, `position` finds nothing. -/
theorem position_eq_none_of_not_mem {α : Type} [BEq α] [LawfulBEq α] {x : α}
    {l : List α} (h : x ∉ l) : position (fun m => m == x) l = none := by
  induction l with
  | nil => rfl
  | cons y ys ih =>
    simp only [List.mem_cons, not_or] at h
    have hy : (y == x) = false := by
      simp only [beq_eq_false_iff_ne]
      exact fun e => h.1 e.symm
    simp [position, hy, ih h.2]

/-- When the sought element is present, `position` finds an index. -/
theorem position_isSome_of_mem {α : Type} [BEq α] [LawfulBEq α] {x : α}
    {l : List α} (h : x ∈ l) : (position (fun m => m == x) l).isSome := by
  induction l with
  | nil => simp at h
  | cons y ys ih =>
    by_cases hy : (y == x) = true
    · simp [position, hy]
    · simp only [List.mem_cons] at h
      rcases h with h | h
      · exact absurd (by simp [h]) hy
      · simp [position, hy, Option.isSome_map]
        exact ih h

/-- An index found by `position` is in bounds. -/
theorem position_lt_length {α : Type} {p : α → Bool} :
    ∀ {l : List α} {i : Nat}, position p l = some i → i < l.length := by
  intro l
  induction l with
  | nil => intro i h; simp [position] at h
  | cons x xs ih =>
    intro i h
    simp only [position] at h
    split at h
    · cases h; simp
    · rw [Option.map_eq_some'] at h
      obtain ⟨j, hj, hji⟩ := h
      have := ih hj
      simp only [List.length_cons]
      omega

/-- C2: the "next option" policy: a current value absent from the
available list yields no result; otherwise the result is the option at
`(index_of(current) + 1) mod length`, wrapping around, including for a
one-element list; on `[Design, Live]` the next of `Design` is `Live` and
the next of `Live` is `Design`. -/
theorem C2_next_option_policy :
    (∀ (current : ExecutionEnvironment) (available : List ExecutionEnvironment),
      current ∉ available →
        get_next_execution_environment current available = none)
    ∧ (∀ (current : ExecutionEnvironment)
        (available : List ExecutionEnvironment) (index : Nat),
        position (fun mode => mode == current) available = some index →
        ∃ h : (index + 1) % available.length < available.length,
          get_next_execution_environment current available =
            some (available.get ⟨(index + 1) % available.length, h⟩))
    ∧ (∀ x : ExecutionEnvironment, get_next_execution_environment x [x] = some x)
    ∧ get_next_execution_environment "Design" ["Design", "Live"] = some "Live"
    ∧ get_next_execution_environment "Live" ["Design", "Live"] = some "Design" := by
  refine ⟨?_, ?_, ?_, by decide, by decide⟩
  · intro current available h
    simp [get_next_execution_environment, position_eq_none_of_not_mem h]
  · intro current available index h
    have hlen : index < available.length := position_lt_length h
    have hm : (index + 1) % available.length < available.length :=
      Nat.mod_lt _ (by omega)
    refine ⟨hm, ?_⟩
    simp [get_next_execution_environment, h, List.getElem?_eq_getElem hm,
      List.get_eq_getElem]
  · intro x
    simp [get_next_execution_environment, position]

/-- Witness for C2 at concrete inputs. -/
theorem C2_witness :
    get_next_execution_environment "Enterprise" ["Design", "Live"] = none
    ∧ ∃ h : (0 + 1) % (["Design", "Live"] : List ExecutionEnvironment).length <
          (["Design", "Live"] : List ExecutionEnvironment).length,
        get_next_execution_environment "Design" ["Design", "Live"] =
          some ((["Design", "Live"] : List ExecutionEnvironment).get
            ⟨(0 + 1) % (["Design", "Live"] : List ExecutionEnvironment).length, h⟩) :=
  ⟨C2_next_option_policy.1 "Enterprise" ["Design", "Live"] (by decide),
   C2_next_option_policy.2.1 "Design" ["Design", "Live"] 0 rfl⟩

/-- C8: totality of `get_next_execution_environment`: the result is
`some` exactly when the current value occurs in the available list, and
whenever `position` finds an index the list is non-empty (so the modulo
is well-defined) and the incremented index stays in bounds. -/
theorem C8_get_next_total :
    (∀ (current : ExecutionEnvironment) (available : List ExecutionEnvironment),
      (get_next_execution_environment current available).isSome
        ↔ current ∈ available)
    ∧ (∀ (current : ExecutionEnvironment)
        (available : List ExecutionEnvironment) (index : Nat),
        position (fun mode => mode == current) available = some index →
          0 < available.length
          ∧ (index + 1) % available.length < available.length) := by
  constructor
  · intro current available
    constructor
    · intro h
      by_contra hmem
      rw [show get_next_execution_environment current available = none from by
        simp [get_next_execution_environment, position_eq_none_of_not_mem hmem]]
        at h
      simp at h
    · intro hmem
      have hp := position_isSome_of_mem hmem
      obtain ⟨index, hindex⟩ := Option.isSome_iff_exists.mp hp
      have hlen : index < available.length := position_lt_length hindex
      have hm : (index + 1) % available.length < available.length :=
        Nat.mod_lt _ (by omega)
      simp [get_next_execution_environment, hindex, List.getElem?_eq_getElem hm]
  · intro current available index h
    have hlen : index < available.length := position_lt_length h
    exact ⟨by omega, Nat.mod_lt _ (by omega)⟩

/-- Witness for C8 at concrete inputs. -/
theorem C8_witness :
    ((get_next_execution_environment "Live" ["Design", "Live"]).isSome
      ↔ ("Live" : ExecutionEnvironment) ∈ ["Design", "Live"])
    ∧ (0 < (["Design", "Live"] : List ExecutionEnvironment).length
      ∧ (1 + 1) % (["Design", "Live"] : List ExecutionEnvironment).length <
          (["Design", "Live"] : List ExecutionEnvironment).length) :=
  ⟨C8_get_next_total.1 "Live" ["Design", "Live"],
   C8_get_next_total.2 "Live" ["Design", "Live"] 1 rfl⟩

/-- C1: the authoritative state follows the discrete-time recurrence
`state[t] = merge(external_selection[t], next(state[t-1], toggle[t]))`:
during a toggle pass the next-value computation reads the pre-pass
snapshot of `execution_environment_state`, the merge forwards the next
value (no external selection fires in a toggle pass), and the
authoritative node is updated before its downstream snapshot node, so the
post-pass snapshot already holds the new state; during an external
selection pass the merge forwards the external value. -/
theorem C1_feedback_recurrence :
    ∀ (c : LayoutConsts) (s : FrpState),
      ((step c s FrpInput.toggle_execution_environment).out_execution_environment =
        match mergeAnyFire [none, toggledFiring s] with
        | some v => some v
        | none => s.out_execution_environment)
      ∧ (∀ (mode next : ExecutionEnvironment)
          (availState available : List ExecutionEnvironment),
          s.execution_environment_state = some (mode, availState) →
          get_next_execution_environment mode availState = some next →
          s.set_available_execution_environments = some available →
            (step c s
              FrpInput.toggle_execution_environment).out_execution_environment
              = some next
            ∧ (step c s
                FrpInput.toggle_execution_environment).execution_environment_state
                = some (next, available))
      ∧ (∀ env : ExecutionEnvironment,
          (step c s
            (FrpInput.set_execution_environment env)).out_execution_environment =
            match mergeAnyFire [some env, none] with
            | some v => some v
            | none => s.out_execution_environment) := by
  intro c s
  refine ⟨?_, ?_, ?_⟩
  · cases hS : s.execution_environment_state with
    | none => simp [step, toggledFiring, hS, mergeAnyFire]
    | some p =>
      obtain ⟨mode, available⟩ := p
      cases hN : get_next_execution_environment mode available with
      | none => simp [step, toggledFiring, hS, hN, mergeAnyFire]
      | some next =>
        cases hA : s.set_available_execution_environments with
        | none => simp [step, toggledFiring, updateOut, hS, hN, hA, mergeAnyFire]
        | some av => simp [step, toggledFiring, updateOut, hS, hN, hA, mergeAnyFire]
  · intro mode next availState available h1 h2 h3
    constructor <;> simp [step, updateOut, h1, h2, h3]
  · intro env
    cases hA : s.set_available_execution_environments with
    | none => simp [step, updateOut, hA, mergeAnyFire]
    | some av => simp [step, updateOut, hA, mergeAnyFire]

/-- A network state in which `Design` is selected and `[Design, Live]`
is available, used to exercise a toggle pass. -/
def toggleSampleState : FrpState :=
  { initialFrpState with
    out_execution_environment := some "Design"
    set_available_execution_environments := some ["Design", "Live"]
    execution_environment_state := some ("Design", ["Design", "Live"]) }

/-- Witness for C1: one toggle pass from the `Design` state. -/
theorem C1_witness :
    (step scenarioConsts toggleSampleState
      FrpInput.toggle_execution_environment).out_execution_environment
      = some "Live"
    ∧ (step scenarioConsts toggleSampleState
        FrpInput.toggle_execution_environment).execution_environment_state
      = some ("Live", ["Design", "Live"]) :=
  (C1_feedback_recurrence scenarioConsts toggleSampleState).2.1
    "Design" "Live" ["Design", "Live"] ["Design", "Live"] rfl (by decide) rfl

/-- C3: end-to-end scenario with `available = [Design, Live]`: external
selection `Live` makes the authoritative state `Live`; a toggle wraps to
`Design`; geometry updates (selector size, window-button gap) leave the
selection unchanged; a second toggle returns to `Live`. -/
theorem C3_end_to_end_scenario :
    (run scenarioConsts initialFrpState
      [FrpInput.init_emit,
       FrpInput.set_available_execution_environments ["Design", "Live"],
       FrpInput.set_execution_environment "Live"]).out_execution_environment
      = some "Live"
    ∧ (run scenarioConsts initialFrpState
        [FrpInput.init_emit,
         FrpInput.set_available_execution_environments ["Design", "Live"],
         FrpInput.set_execution_environment "Live",
         FrpInput.toggle_execution_environment]).out_execution_environment
      = some "Design"
    ∧ (run scenarioConsts initialFrpState
        [FrpInput.init_emit,
         FrpInput.set_available_execution_environments ["Design", "Live"],
         FrpInput.set_execution_environment "Live",
         FrpInput.toggle_execution_environment,
         FrpInput.selector_size_changed ⟨60, 20⟩,
         FrpInput.space_for_window_buttons_changed ⟨52, 28⟩]).out_execution_environment
      = some "Design"
    ∧ (run scenarioConsts initialFrpState
        [FrpInput.init_emit,
         FrpInput.set_available_execution_environments ["Design", "Live"],
         FrpInput.set_execution_environment "Live",
         FrpInput.toggle_execution_environment,
         FrpInput.selector_size_changed ⟨60, 20⟩,
         FrpInput.space_for_window_buttons_changed ⟨52, 28⟩,
         FrpInput.toggle_execution_environment]).out_execution_environment
      = some "Live" := by
  refine ⟨by decide, by decide, by decide, by decide⟩

/-- C6: a toggle event whose current value is absent from the available
list produces an explicit empty next-option result (no error), and the
whole pass leaves the network state unchanged. -/
theorem C6_absent_toggle_noop :
    ∀ (c : LayoutConsts) (s : FrpState)
      (mode : ExecutionEnvironment) (available : List ExecutionEnvironment),
      s.execution_environment_state = some (mode, available) →
      mode ∉ available →
        get_next_execution_environment mode available = none
        ∧ step c s FrpInput.toggle_execution_environment = s := by
  intro c s mode available h1 h2
  have hn : get_next_execution_environment mode available = none := by
    simp [get_next_execution_environment, position_eq_none_of_not_mem h2]
  exact ⟨hn, by simp [step, h1, hn]⟩

/-- A network state whose snapshot holds a value absent from the
available list. -/
def absentSampleState : FrpState :=
  { initialFrpState with
    out_execution_environment := some "Other"
    set_available_execution_environments := some ["Design", "Live"]
    execution_environment_state := some ("Other", ["Design", "Live"]) }

/-- Witness for C6: toggling from a value outside the available list. -/
theorem C6_witness :
    get_next_execution_environment "Other" ["Design", "Live"] = none
    ∧ step scenarioConsts absentSampleState
        FrpInput.toggle_execution_environment = absentSampleState :=
  C6_absent_toggle_noop scenarioConsts absentSampleState
    "Other" ["Design", "Live"] rfl (by decide)

/-- C7: the derived-layout observer is idempotent: re-delivering the
same selector-size or window-button-gap value yields exactly the same
network state (hence the same selector positions and breadcrumb gap), so
evaluating the layout computation twice with the same inputs produces
identical outputs. -/
theorem C7_layout_idempotent :
    ∀ (c : LayoutConsts) (s : FrpState) (v g : Vec2),
      step c (step c s (FrpInput.selector_size_changed v))
        (FrpInput.selector_size_changed v)
        = step c s (FrpInput.selector_size_changed v)
      ∧ step c (step c s (FrpInput.space_for_window_buttons_changed g))
          (FrpInput.space_for_window_buttons_changed g)
        = step c s (FrpInput.space_for_window_buttons_changed g) := by
  intro c s v g
  obtain ⟨o1, o2, o3, o4, o5, o6, oi, osz, osp, ol⟩ := s
  constructor
  · cases oi <;> cases osp <;> rfl
  · cases oi <;> cases osz <;> rfl

/-- C4: MergeAny tie-break: when several declared upstreams fire in the
same pass, the node's output is the value of the first-declared firing
upstream; in particular when upstreams `i < j` both fire and no upstream
before `i` fires, the output is upstream `i`'s value. -/
theorem C4_merge_any_tie_break :
    ∀ (V : Type) (firings : List (Option V)) (i j : Nat) (a b : V),
      i < j →
      firings[i]? = some (some a) →
      firings[j]? = some (some b) →
      (∀ k, k < i → firings[k]? = some none) →
      mergeAnyFire firings = some a := by
  intro V firings
  induction firings with
  | nil => intro i j a b hij hi hj hk; simp at hi
  | cons x rest ih =>
    intro i j a b hij hi hj hk
    cases i with
    | zero =>
      simp only [List.getElem?_cons_zero, Option.some.injEq] at hi
      subst hi
      rfl
    | succ i' =>
      have hx : x = none := by
        have := hk 0 (Nat.succ_pos _)
        simpa using this
      subst hx
      cases j with
      | zero => omega
      | succ j' =>
        simp only [List.getElem?_cons_succ] at hi hj
        have := ih i' j' a b (by omega) hi hj (fun k hkk => by
          have := hk (k + 1) (by omega)
          simpa using this)
        simpa [mergeAnyFire] using this

/-- Witness for C4: both upstreams of a two-input MergeAny fire; the
first-declared value is forwarded. -/
theorem C4_witness : mergeAnyFire [some 1, some 2] = some (1 : Nat) :=
  C4_merge_any_tie_break Nat [some 1, some 2] 0 1 1 2 (by decide) rfl rfl
    (fun k hk => absurd hk (Nat.not_lt_zero k))

/-- Accumulator lemma for the `lastFiring` fold: the fold's result is
the last value written, falling back to the initial accumulator when no
pass fires the upstream. -/
theorem lastFiring_foldl_acc {V : Type} (i : Nat) :
    ∀ (rest : List (List (Option V))) (acc : Option V),
      rest.foldl (fun a pass =>
        match pass[i]? with | some (some v) => some v | _ => a) acc
      = match rest.foldl (fun a pass =>
          match pass[i]? with | some (some v) => some v | _ => a) none with
        | some v => some v
        | none => acc := by
  intro rest
  induction rest with
  | nil => intro acc; rfl
  | cons p ps ih =>
    intro acc
    simp only [List.foldl_cons]
    rw [ih, ih (match p[i]? with | some (some v) => some v | _ => none)]
    cases hps : ps.foldl (fun a pass =>
        match pass[i]? with | some (some v) => some v | _ => a) none with
    | some v => rfl
    | none =>
      cases hp : p[i]? with
      | none => rfl
      | some o => cases o <;> rfl

/-- Unfolding of `lastFiring` over a leading pass. -/
theorem lastFiring_cons {V : Type} (p : List (Option V))
    (rest : List (List (Option V))) (i : Nat) :
    lastFiring (p :: rest) i
      = match lastFiring rest i with
        | some v => some v
        | none => match p[i]? with | some (some v) => some v | _ => none := by
  simp only [lastFiring, List.foldl_cons]
  exact lastFiring_foldl_acc i rest _

/-- Index-wise description of one `MergeAll` slot update. -/
theorem mergeAllSlots_getElem? {V : Type} :
    ∀ (slots firings : List (Option V)), slots.length = firings.length →
      ∀ i : Nat, (mergeAllSlots slots firings)[i]? =
        (match firings[i]? with
        | some (some v) => some (some v)
        | some none => slots[i]?
        | none => none : Option (Option V)) := by
  intro slots
  induction slots with
  | nil =>
    intro firings h i
    have : firings = [] := List.eq_nil_of_length_eq_zero h.symm
    subst this
    rfl
  | cons s ss ih =>
    intro firings h i
    cases firings with
    | nil => simp at h
    | cons f fs =>
      cases i with
      | zero => cases f <;> simp [mergeAllSlots]
      | succ i' =>
        simp only [mergeAllSlots, List.zipWith_cons_cons,
          List.getElem?_cons_succ]
        have h' : ss.length = fs.length := by simpa using h
        exact ih fs h' i'

/-- Index-wise description of the `MergeAll` slot state after a history
of passes, over an arbitrary initial slot list. -/
theorem foldl_mergeAllSlots_getElem? {V : Type} :
    ∀ (hist : List (List (Option V))) (s0 : List (Option V)),
      (∀ p ∈ hist, p.length = s0.length) →
      ∀ i, (hist.foldl mergeAllSlots s0)[i]? =
        match lastFiring hist i with
        | some v => some (some v)
        | none => s0[i]? := by
  intro hist
  induction hist with
  | nil => intro s0 h i; rfl
  | cons p ps ih =>
    intro s0 h i
    have hp : p.length = s0.length := h p (List.mem_cons_self p ps)
    have hlen : (mergeAllSlots s0 p).length = s0.length := by
      simp [mergeAllSlots, hp]
    have hrest : ∀ q ∈ ps, q.length = (mergeAllSlots s0 p).length := by
      intro q hq
      rw [hlen]
      exact h q (List.mem_cons_of_mem p hq)
    simp only [List.foldl_cons]
    rw [ih (mergeAllSlots s0 p) hrest i, lastFiring_cons,
      mergeAllSlots_getElem? s0 p (by omega) i]
    cases lastFiring ps i with
    | some v => rfl
    | none =>
      cases hpi : p[i]? with
      | none =>
        have hlen2 : s0.length ≤ i := by
          have := List.getElem?_eq_none_iff.mp hpi
          omega
        rw [List.getElem?_eq_none hlen2]
      | some o => cases o <;> rfl

/-- An upstream index beyond the width of every pass never fires. -/
theorem lastFiring_eq_none_of_le {V : Type} :
    ∀ (hist : List (List (Option V))) (n i : Nat),
      (∀ p ∈ hist, p.length = n) → n ≤ i → lastFiring hist i = none := by
  intro hist
  induction hist with
  | nil => intro n i h hi; rfl
  | cons p ps ih =>
    intro n i h hi
    rw [lastFiring_cons, ih n i (fun q hq => h q (List.mem_cons_of_mem p hq)) hi]
    have : p[i]? = none := by
      rw [List.getElem?_eq_none]
      rw [h p (List.mem_cons_self p ps)]
      exact hi
    rw [this]

/-- The `MergeAll` slot state after a history equals, index by index,
the last value each upstream fired. -/
theorem mergeAllRun_eq_map_lastFiring {V : Type} :
    ∀ (n : Nat) (hist : List (List (Option V))),
      (∀ p ∈ hist, p.length = n) →
      mergeAllRun n hist = (List.range n).map (lastFiring hist) := by
  intro n hist h
  apply List.ext_getElem?
  intro i
  have hrep : (List.replicate n (none : Option V)).length = n :=
    List.length_replicate n none
  have hlens : ∀ p ∈ hist, p.length =
      (List.replicate n (none : Option V)).length := by
    intro p hp; rw [hrep]; exact h p hp
  rw [mergeAllRun, foldl_mergeAllSlots_getElem? hist _ hlens i]
  by_cases hi : i < n
  · rw [List.getElem?_map, List.getElem?_range hi,
      List.getElem?_replicate_of_lt (by omega)]
    simp only [Option.map_some']
    cases lastFiring hist i <;> rfl
  · have h1 : lastFiring hist i = none :=
      lastFiring_eq_none_of_le hist n i h (by omega)
    have hlen1 : (List.replicate n (none : Option V)).length ≤ i := by
      simp only [List.length_replicate]; omega
    have hlen2 : ((List.range n).map (lastFiring hist)).length ≤ i := by
      simp only [List.length_map, List.length_range]; omega
    simp only [h1]
    rw [List.getElem?_eq_none hlen1, List.getElem?_eq_none hlen2]

/-- A missing entry makes `seqOption` empty. -/
theorem seqOption_eq_none_of_mem {V : Type} :
    ∀ (l : List (Option V)), none ∈ l → seqOption l = none := by
  intro l
  induction l with
  | nil => intro h; simp at h
  | cons x xs ih =>
    intro h
    cases x with
    | none => rfl
    | some v =>
      have : none ∈ xs := by
        rcases List.mem_cons.mp h with h1 | h1
        · exact absurd h1.symm (by simp)
        · exact h1
      simp [seqOption, ih this]

/-- C5: MergeAll/Zip semantics: starting from Network creation, the
node's output on a pass equals `seqOption` of the latest values of all
upstreams when at least one upstream fires this pass (so it is the full
tuple once every upstream has fired at least once) and nothing otherwise;
in particular it never fires while some upstream has never fired. -/
theorem C5_merge_all_semantics :
    ∀ (V : Type) (n : Nat) (hist : List (List (Option V)))
      (cur : List (Option V)),
      (∀ p ∈ hist, p.length = n) → cur.length = n →
      (mergeAllFire (mergeAllRun n hist) cur
        = if cur.any Option.isSome
          then seqOption ((List.range n).map (lastFiring (hist ++ [cur])))
          else none)
      ∧ (∀ i, i < n → lastFiring (hist ++ [cur]) i = none →
          mergeAllFire (mergeAllRun n hist) cur = none) := by
  intro V n hist cur hh hc
  have hall : ∀ p ∈ hist ++ [cur], p.length = n := by
    intro p hp
    rcases List.mem_append.mp hp with h1 | h1
    · exact hh p h1
    · rw [List.mem_singleton.mp h1]; exact hc
  have hkey : mergeAllSlots (mergeAllRun n hist) cur
      = (List.range n).map (lastFiring (hist ++ [cur])) := by
    have : mergeAllSlots (mergeAllRun n hist) cur
        = mergeAllRun n (hist ++ [cur]) := by
      simp [mergeAllRun, List.foldl_append]
    rw [this, mergeAllRun_eq_map_lastFiring n (hist ++ [cur]) hall]
  constructor
  · rw [mergeAllFire, hkey]
  · intro i hi hnone
    rw [mergeAllFire, hkey]
    have hmem : none ∈ (List.range n).map (lastFiring (hist ++ [cur])) := by
      rw [List.mem_map]
      exact ⟨i, List.mem_range.mpr hi, hnone⟩
    rw [seqOption_eq_none_of_mem _ hmem]
    split <;> rfl

/-- Witness for C5: a two-upstream MergeAll fires with the full tuple
once both upstreams have fired, and a one-upstream MergeAll that has
never fired emits nothing. -/
theorem C5_witness :
    mergeAllFire (mergeAllRun 2 [[some 1, none]]) [none, some (2 : Nat)]
      = some [1, 2]
    ∧ mergeAllFire (mergeAllRun 1 ([] : List (List (Option Nat)))) [none]
      = none :=
  ⟨((C5_merge_all_semantics Nat 2 [[some 1, none]] [none, some 2]
      (by decide) (by decide)).1).trans (by decide),
   (C5_merge_all_semantics Nat 1 [] [none] (by decide) (by decide)).2
     0 (by decide) (by decide)⟩

-- === Circular deque invariants ===

/-- Applying an operation never changes the recorded capacity. -/
theorem applyOp_capacity {T : Type} (d : CircularVecDeque T) (op : DequeOp T) :
    (applyOp d op).capacity = d.capacity := by
  cases op with
  | push_front v =>
    simp only [applyOp, CircularVecDeque.push_front, CircularVecDeque.pop_back]
    split <;> rfl
  | push_back v =>
    simp only [applyOp, CircularVecDeque.push_back, CircularVecDeque.pop_front]
    split <;> rfl
  | pop_front => rfl
  | pop_back => rfl

/-- With positive capacity, one operation keeps the length within the
capacity. -/
theorem applyOp_len_le {T : Type} (d : CircularVecDeque T) (op : DequeOp T)
    (hcap : 0 < d.capacity) (h : d.len ≤ d.capacity) :
    (applyOp d op).len ≤ d.capacity := by
  simp only [CircularVecDeque.len] at h
  cases op with
  | push_front v =>
    cases hf : d.is_full with
    | true =>
      have hlen : d.vec.length = d.capacity := by
        simpa [CircularVecDeque.is_full, CircularVecDeque.len] using hf
      simp [applyOp, CircularVecDeque.push_front, CircularVecDeque.pop_back,
        CircularVecDeque.len, hf]
      omega
    | false =>
      have hlen : ¬ d.vec.length = d.capacity := by
        simpa [CircularVecDeque.is_full, CircularVecDeque.len] using hf
      simp [applyOp, CircularVecDeque.push_front, CircularVecDeque.len, hf]
      omega
  | push_back v =>
    cases hf : d.is_full with
    | true =>
      have hlen : d.vec.length = d.capacity := by
        simpa [CircularVecDeque.is_full, CircularVecDeque.len] using hf
      simp [applyOp, CircularVecDeque.push_back, CircularVecDeque.pop_front,
        CircularVecDeque.len, hf]
      omega
    | false =>
      have hlen : ¬ d.vec.length = d.capacity := by
        simpa [CircularVecDeque.is_full, CircularVecDeque.len] using hf
      simp [applyOp, CircularVecDeque.push_back, CircularVecDeque.len, hf]
      omega
  | pop_front =>
    simp [applyOp, CircularVecDeque.pop_front, CircularVecDeque.len]
    omega
  | pop_back =>
    simp [applyOp, CircularVecDeque.pop_back, CircularVecDeque.len]
    omega

/-- With positive capacity, any operation sequence keeps the length
within the capacity and preserves the capacity. -/
theorem runOps_len_le {T : Type} :
    ∀ (ops : List (DequeOp T)) (d : CircularVecDeque T),
      0 < d.capacity → d.len ≤ d.capacity →
      (runOps d ops).len ≤ d.capacity
      ∧ (runOps d ops).capacity = d.capacity := by
  intro ops
  induction ops with
  | nil => intro d hc h; exact ⟨h, rfl⟩
  | cons op ops ih =>
    intro d hc h
    have h2 := applyOp_capacity d op
    have h1 := applyOp_len_le d op hc h
    have := ih (applyOp d op) (by omega) (by omega)
    simp only [runOps]
    constructor
    · omega
    · omega

/-- C9 counterexample: the claim fails at capacity zero.  A deque
created with `new(0)` is already "full" while empty, the compensating
pop removes nothing, and a push yields length `1 > 0 = capacity`. -/
theorem C9_counterexample :
    ¬ ((runOps (CircularVecDeque.new 0 : CircularVecDeque Nat)
        [DequeOp.push_back 7]).len ≤
      (CircularVecDeque.new 0 : CircularVecDeque Nat).capacity) := by decide

/-- C9 (amended to positive capacity): for every deque created by
`new(capacity)` with `capacity ≥ 1` and every operation sequence, the
length never exceeds the capacity; and pushing to a full deque (on
either side) first drops an element, leaving the length equal to the
capacity. -/
theorem C9_capacity_invariant :
    ∀ (T : Type) (cap : Nat), 0 < cap →
      (∀ (ops : List (DequeOp T)),
        (runOps (CircularVecDeque.new cap : CircularVecDeque T) ops).len ≤ cap)
      ∧ (∀ (d : CircularVecDeque T) (v : T),
          d.capacity = cap → d.is_full →
            (d.push_back v).len = cap ∧ (d.push_front v).len = cap) := by
  intro T cap hcap
  constructor
  · intro ops
    have h0 : (CircularVecDeque.new cap : CircularVecDeque T).len ≤ cap := by
      simp [CircularVecDeque.new, CircularVecDeque.len]
    exact (runOps_len_le ops (CircularVecDeque.new cap) hcap h0).1
  · intro d v hdc hf
    have hlen : d.vec.length = d.capacity := by
      simpa [CircularVecDeque.is_full, CircularVecDeque.len] using hf
    constructor
    · simp only [CircularVecDeque.push_back, CircularVecDeque.pop_front,
        CircularVecDeque.len, hf, if_true, List.length_append,
        List.length_tail, List.length_cons, List.length_nil]
      omega
    · simp only [CircularVecDeque.push_front, CircularVecDeque.pop_back,
        CircularVecDeque.len, hf, if_true, List.length_cons,
        List.length_dropLast]
      omega

/-- Witness for C9 at capacity two. -/
theorem C9_witness :
    (runOps (CircularVecDeque.new 2 : CircularVecDeque Nat)
      [DequeOp.push_back 1, DequeOp.push_back 2, DequeOp.push_back 3,
       DequeOp.push_front 4, DequeOp.pop_back]).len ≤ 2
    ∧ ((⟨2, [5, 6]⟩ : CircularVecDeque Nat).push_back 7).len = 2
    ∧ ((⟨2, [5, 6]⟩ : CircularVecDeque Nat).push_front 8).len = 2 := by
  have h := C9_capacity_invariant Nat 2 (by decide)
  exact ⟨h.1 _,
    (h.2 ⟨2, [5, 6]⟩ 7 rfl (by decide)).1,
    (h.2 ⟨2, [5, 6]⟩ 8 rfl (by decide)).2⟩

/-- Overwriting position `i` does not change the part of the list after
`i`. -/
theorem set_drop_succ {T : Type} :
    ∀ (v : List T) (i : Nat) (x : T), (v.set i x).drop (i + 1) = v.drop (i + 1) := by
  intro v
  induction v with
  | nil => intro i x; rfl
  | cons y ys ih =>
    intro i x
    cases i with
    | zero => rfl
    | succ i' =>
      simp only [List.set_cons_succ, List.drop_succ_cons]
      exact ih i' x

/-- Overwriting position `i` turns the prefix of length `i + 1` into the
old prefix of length `i` followed by the new element. -/
theorem set_take_succ {T : Type} :
    ∀ (v : List T) (i : Nat) (x : T), i < v.length →
      (v.set i x).take (i + 1) = v.take i ++ [x] := by
  intro v
  induction v with
  | nil => intro i x h; simp at h
  | cons y ys ih =>
    intro i x h
    cases i with
    | zero => rfl
    | succ i' =>
      simp only [List.set_cons_succ, List.take_succ_cons, List.cons_append]
      rw [ih i' x (by simpa using h)]

/-- The loop of `with_last_n_elems` over indices `i..i+k` of a list of
length `i + k` succeeds and rewrites the suffix from `i` by the
accumulator-threaded map, in increasing index order. -/
theorem withLastNGo_range' {T σ : Type} (f : σ → T → σ × T) :
    ∀ (k i : Nat) (s : σ) (v : List T), i + k = v.length →
      CircularVecDeque.withLastNGo f (List.range' i k) s v =
        some ((mapAccum f s (v.drop i)).1,
          v.take i ++ (mapAccum f s (v.drop i)).2) := by
  intro k
  induction k with
  | zero =>
    intro i s v h
    have hd : v.drop i = [] := List.drop_eq_nil_of_le (by omega)
    simp only [List.range', CircularVecDeque.withLastNGo, hd, mapAccum]
    rw [show i = v.length from by omega, List.take_length, List.append_nil]
  | succ k ih =>
    intro i s v h
    have hi : i < v.length := by omega
    have hx : v[i]? = some v[i] := List.getElem?_eq_getElem hi
    have hdrop : v.drop i = v[i] :: v.drop (i + 1) :=
      List.drop_eq_getElem_cons hi
    have hset : ((v.set i (f s v[i]).2).length) = v.length := by simp
    rw [List.range'_succ]
    simp only [CircularVecDeque.withLastNGo, hx]
    rw [ih (i + 1) (f s v[i]).1 (v.set i (f s v[i]).2) (by omega)]
    rw [set_drop_succ, set_take_succ v i _ hi, hdrop]
    simp only [mapAccum, List.append_assoc, List.cons_append, List.nil_append]

/-- C10: `with_last_n_elems` always succeeds (the `unwrap` on `get_mut`
never fires out of bounds) and applies the closure to exactly the last
`min(n, len)` elements in increasing index order, threading the closure
state; `with_last_nth_elem` always succeeds, is the identity when
`len ≤ n`, and applies the closure to exactly the element at index
`len - n - 1` when `n < len`. -/
theorem C10_with_last_elems :
    ∀ (T σ : Type) (d : CircularVecDeque T) (n : Nat)
      (f : σ → T → σ × T) (s : σ) (g : T → T),
      (d.with_last_n_elems n f s =
        some ((mapAccum f s (d.vec.drop (d.vec.length - n))).1,
          { d with vec := d.vec.take (d.vec.length - n) ++
              (mapAccum f s (d.vec.drop (d.vec.length - n))).2 }))
      ∧ (d.vec.length ≤ n → d.with_last_nth_elem n g = some d)
      ∧ (∀ x, n < d.vec.length → d.vec[d.vec.length - n - 1]? = some x →
          d.with_last_nth_elem n g =
            some { d with vec := d.vec.set (d.vec.length - n - 1) (g x) })
      ∧ (n < d.vec.length → (d.with_last_nth_elem n g).isSome) := by
  intro T σ d n f s g
  refine ⟨?_, ?_, ?_, ?_⟩
  · have hk : (d.vec.length - n) + (d.vec.length - (d.vec.length - n))
        = d.vec.length := by omega
    simp only [CircularVecDeque.with_last_n_elems, CircularVecDeque.len]
    rw [withLastNGo_range' f (d.vec.length - (d.vec.length - n))
      (d.vec.length - n) s d.vec hk]
  · intro h
    simp only [CircularVecDeque.with_last_nth_elem, CircularVecDeque.len]
    rw [if_neg (by omega)]
  · intro x hn hx
    simp only [CircularVecDeque.with_last_nth_elem, CircularVecDeque.len]
    rw [if_pos (by omega)]
    rw [hx]
  · intro hn
    have hidx : d.vec.length - n - 1 < d.vec.length := by omega
    have hx : d.vec[d.vec.length - n - 1]? = some d.vec[d.vec.length - n - 1] :=
      List.getElem?_eq_getElem hidx
    simp only [CircularVecDeque.with_last_nth_elem, CircularVecDeque.len]
    rw [if_pos (by omega), hx]
    rfl

/-- Witness for C10: the last-`n` traversal and the `n`-th-from-back
update on concrete deques. -/
theorem C10_witness :
    CircularVecDeque.with_last_n_elems (⟨5, [10, 20, 30]⟩ : CircularVecDeque Nat)
      2 (fun acc t => (acc + t, t + 1)) 0 =
      some ((mapAccum (fun acc t => (acc + t, t + 1)) 0
          (([10, 20, 30] : List Nat).drop (3 - 2))).1,
        ⟨5, ([10, 20, 30] : List Nat).take (3 - 2) ++
          (mapAccum (fun acc t => (acc + t, t + 1)) 0
            (([10, 20, 30] : List Nat).drop (3 - 2))).2⟩)
    ∧ CircularVecDeque.with_last_nth_elem
        (⟨5, [10]⟩ : CircularVecDeque Nat) 1 Nat.succ = some ⟨5, [10]⟩
    ∧ CircularVecDeque.with_last_nth_elem
        (⟨5, [10, 20, 30]⟩ : CircularVecDeque Nat) 1 Nat.succ
        = some ⟨5, [10, 21, 30]⟩
    ∧ (CircularVecDeque.with_last_nth_elem
        (⟨5, [10, 20, 30]⟩ : CircularVecDeque Nat) 0 Nat.succ).isSome := by
  have h0 := (C10_with_last_elems Nat Nat ⟨5, [10, 20, 30]⟩ 2
    (fun acc t => (acc + t, t + 1)) 0 Nat.succ).1
  have h1 := (C10_with_last_elems Nat Unit ⟨5, [10]⟩ 1
    (fun s t => (s, t)) () Nat.succ).2.1 (by decide)
  have h2 := (C10_with_last_elems Nat Unit ⟨5, [10, 20, 30]⟩ 1
    (fun s t => (s, t)) () Nat.succ).2.2.1 20 (by decide) (by decide)
  have h3 := (C10_with_last_elems Nat Unit ⟨5, [10, 20, 30]⟩ 0
    (fun s t => (s, t)) () Nat.succ).2.2.2 (by decide)
  exact ⟨h0, h1, h2.trans (by decide), h3⟩

end Enso
